import Mathlib

/-!
Verification of the `timeslots` repository: the interval data model
(`Block`, `Span`, `Slot`), the four relational predicates, and the sweep
algorithm `Find` / `FindWithMapper` from `src/finder.go`.

Time points are modelled as `Int` (the source uses `time.Time`, whose
`Before` comparison is a strict total order; only the order structure is
relevant to the algorithm).  The entity file defining `Block`, `Span`,
`Slot`, the predicates and the span mutators is not part of the sources at
hand, so those definitions are modelled from the specification (§3, §4.1);
each such definition carries a doc comment saying so.  `Find` and
`FindWithMapper` are translated directly from `src/finder.go`.
-/

/-- Modelled from the spec: a busy interval (`Block`), two ordered time
points; invariant `Start < End` is tracked separately as `Block.Valid`. -/
structure Block where
  start : Int
  end_ : Int
deriving DecidableEq, Repr

/-- Modelled from the spec: the search window (`Span`). -/
structure Span where
  start : Int
  end_ : Int
deriving DecidableEq, Repr

/-- Modelled from the spec: a free-time result interval (`Slot`). -/
structure Slot where
  start : Int
  end_ : Int
deriving DecidableEq, Repr

/-- Modelled from the spec: the `Period` capability — anything exposing
`Start()` and `End()` as ordered time points. -/
class Period (α : Type) where
  startP : α → Int
  endP : α → Int

instance periodBlock : Period Block := ⟨Block.start, Block.end_⟩

instance periodSpan : Period Span := ⟨Span.start, Span.end_⟩

instance periodSlot : Period Slot := ⟨Slot.start, Slot.end_⟩

theorem Span.startP_eq (s : Span) : Period.startP s = s.start := rfl

theorem Span.endP_eq (s : Span) : Period.endP s = s.end_ := rfl

/-- Well-formedness of a block: `Start < End` (the validated constructor
`NewBlock` rejects anything else). -/
def Block.Valid (b : Block) : Prop := b.start < b.end_

instance (b : Block) : Decidable b.Valid :=
  inferInstanceAs (Decidable (_ < _))

/-- Modelled from the spec: `Contains(p)` ⟺
`p.Start >= block.Start && p.End <= block.End`. -/
def Block.Contains [Period α] (b : Block) (p : α) : Prop :=
  b.start ≤ Period.startP p ∧ Period.endP p ≤ b.end_

instance [Period α] (b : Block) (p : α) : Decidable (b.Contains p) :=
  inferInstanceAs (Decidable (_ ∧ _))

/-- Modelled from the spec: `IsContainedIn(p)` ⟺
`p.Start <= block.Start && block.End <= p.End`. -/
def Block.IsContainedIn [Period α] (b : Block) (p : α) : Prop :=
  Period.startP p ≤ b.start ∧ b.end_ ≤ Period.endP p

instance [Period α] (b : Block) (p : α) : Decidable (b.IsContainedIn p) :=
  inferInstanceAs (Decidable (_ ∧ _))

/-- Modelled from the spec: `OverlapAtStart(p)` ⟺
`block.Start <= p.Start && p.Start < block.End && block.End <= p.End`. -/
def Block.OverlapAtStart [Period α] (b : Block) (p : α) : Prop :=
  b.start ≤ Period.startP p ∧ Period.startP p < b.end_ ∧ b.end_ ≤ Period.endP p

instance [Period α] (b : Block) (p : α) : Decidable (b.OverlapAtStart p) :=
  inferInstanceAs (Decidable (_ ∧ _ ∧ _))

/-- Modelled from the spec: `OverlapAtEnd(p)` ⟺
`p.Start <= block.Start && block.Start < p.End && p.End <= block.End`. -/
def Block.OverlapAtEnd [Period α] (b : Block) (p : α) : Prop :=
  Period.startP p ≤ b.start ∧ b.start < Period.endP p ∧ Period.endP p ≤ b.end_

instance [Period α] (b : Block) (p : α) : Decidable (b.OverlapAtEnd p) :=
  inferInstanceAs (Decidable (_ ∧ _ ∧ _))

/-- Modelled from the spec: `Remain` is true while `Start < End` still
holds. -/
def Span.Remain (s : Span) : Prop := s.start < s.end_

instance (s : Span) : Decidable s.Remain :=
  inferInstanceAs (Decidable (_ < _))

/-- Modelled from the spec: `Clone` copies the span into a fresh working
value. -/
def Span.Clone (s : Span) : Span := ⟨s.start, s.end_⟩

/-- Modelled from the spec: `Shorten(block)` advances `Start` forward to
`block.End`. -/
def Span.Shorten (s : Span) (b : Block) : Span := ⟨b.end_, s.end_⟩

/-- Modelled from the spec: `Drop` forces `Remain` to false (the window has
been fully consumed). -/
def Span.Drop (s : Span) : Span := ⟨s.start, s.start⟩

/-- Modelled from the spec: `ToSlot` converts the current remaining window
into a result `Slot`. -/
def Span.ToSlot (s : Span) : Slot := ⟨s.start, s.end_⟩

/-- Modelled from the spec: `createSlotFrom(target, block)` emits the free
gap between `target.Start` and `block.Start`. -/
def createSlotFrom (t : Span) (b : Block) : Slot := ⟨t.start, b.start⟩

/-- `Options[Out]` from `src/finder.go`: the single recognized option is
the filter predicate. -/
structure Options (Out : Type) where
  filterFunc : Option (Out → Bool)

/-- `Options.IsSetFilter` from `src/finder.go`. -/
def Options.IsSetFilter (o : Options Out) : Bool := o.filterFunc.isSome

/-- `WithFilter` from `src/finder.go`. -/
def WithFilter (f : Out → Bool) : Options Out → Options Out :=
  fun o => { o with filterFunc := some f }

/-- Folding the variadic `opts ...` over the zero `Options` value, as both
entry points do on entry. -/
def buildOptions (opts : List (Options Out → Options Out)) : Options Out :=
  opts.foldl (fun o g => g o) ⟨none⟩

/-- The guarded filter call `options.IsSetFilter() && options.FilterFunc(x)`
(short-circuit: the predicate runs only when set). -/
def applyFilter {Out : Type} (fopt : Option (Out → Bool)) (x : Out) : Bool :=
  match fopt with
  | some f => f x
  | none => false

/-- The sort step of `Find`: `sort.Slice` by ascending block `Start`
(modelled by a deterministic insertion sort on the same key). -/
def sortBlocks (blocks : List Block) : List Block :=
  List.insertionSort (fun a b => a.start ≤ b.start) blocks

/-- The code after the loop in `Find` (`src/finder.go:169-178`): if the
target still has room, emit it as one final slot, subject to the filter. -/
def finish (fopt : Option (Slot → Bool)) (t : Span) : List Slot :=
  if t.Remain then
    let s := t.ToSlot
    if applyFilter fopt s then [] else [s]
  else []

/-- The sweep loop of `Find` (`src/finder.go:134-167`) together with the
trailing emission: structural recursion on the sorted block list, the
working span passed explicitly.  A `break` in the source is followed by the
trailing `Remain` check, which is `finish` applied to the dropped target. -/
def sweep (fopt : Option (Slot → Bool)) : List Block → Span → List Slot
  | [], t => finish fopt t
  | b :: bs, t =>
    if b.Contains t then finish fopt t.Drop
    else if b.OverlapAtStart t then sweep fopt bs (t.Shorten b)
    else if b.IsContainedIn t then
      let s := createSlotFrom t b
      if applyFilter fopt s then sweep fopt bs (t.Shorten b)
      else s :: sweep fopt bs (t.Shorten b)
    else if b.OverlapAtEnd t then
      let s := createSlotFrom t b
      if applyFilter fopt s then finish fopt t.Drop
      else s :: finish fopt t.Drop
    else sweep fopt bs t

/-- `Find` from `src/finder.go:111-179`.  A `nil` span is `none`; the
result list is built in order, mirroring the `slots[:j]` trimming. -/
def Find (blocks : List Block) (span : Option Span)
    (opts : List (Options Slot → Options Slot)) : List Slot :=
  let options := buildOptions opts
  match span with
  | none => []
  | some sp =>
    if sp.Remain then
      let target := sp.Clone
      match blocks with
      | [] => [target.ToSlot]
      | _ :: _ => sweep options.filterFunc (sortBlocks blocks) target
    else []

/-- The sort step of `FindWithMapper`: `sort.Slice` on the caller's inputs
by their `Period` start. -/
def sortInputs [Period In] (inputs : List In) : List In :=
  List.insertionSort (fun a b => Period.startP a ≤ Period.startP b) inputs

/-- Trailing emission of `FindWithMapper` (`src/finder.go:97-106`). -/
def finishM (mapout : Slot → Out) (fopt : Option (Out → Bool)) (t : Span) :
    List Out :=
  if t.Remain then
    let s := mapout t.ToSlot
    if applyFilter fopt s then [] else [s]
  else []

/-- The sweep loop of `FindWithMapper` (`src/finder.go:61-95`): each input
is converted by `mapin` during the scan, each emitted slot by `mapout`
before the filter sees it. -/
def sweepM [Period In] (mapin : In → Block) (mapout : Slot → Out)
    (fopt : Option (Out → Bool)) : List In → Span → List Out
  | [], t => finishM mapout fopt t
  | i :: is, t =>
    let b := mapin i
    if b.Contains t then finishM mapout fopt t.Drop
    else if b.OverlapAtStart t then sweepM mapin mapout fopt is (t.Shorten b)
    else if b.IsContainedIn t then
      let s := mapout (createSlotFrom t b)
      if applyFilter fopt s then sweepM mapin mapout fopt is (t.Shorten b)
      else s :: sweepM mapin mapout fopt is (t.Shorten b)
    else if b.OverlapAtEnd t then
      let s := mapout (createSlotFrom t b)
      if applyFilter fopt s then finishM mapout fopt t.Drop
      else s :: finishM mapout fopt t.Drop
    else sweepM mapin mapout fopt is t

/-- `FindWithMapper` from `src/finder.go:38-107`. -/
def FindWithMapper [Period In] (inputs : List In) (span : Option Span)
    (mapin : In → Block) (mapout : Slot → Out)
    (opts : List (Options Out → Options Out)) : List Out :=
  let options := buildOptions opts
  match span with
  | none => []
  | some sp =>
    if sp.Remain then
      let target := sp.Clone
      match inputs with
      | [] => [mapout target.ToSlot]
      | _ :: _ => sweepM mapin mapout options.filterFunc (sortInputs inputs) target
    else []

/-- Point membership in a slot (half-open `[Start, End)`). -/
def inSlot (x : Int) (s : Slot) : Prop := s.start ≤ x ∧ x < s.end_

instance (x : Int) (s : Slot) : Decidable (inSlot x s) :=
  inferInstanceAs (Decidable (_ ∧ _))

/-- Point membership in a block (half-open `[Start, End)`). -/
def inBlock (x : Int) (b : Block) : Prop := b.start ≤ x ∧ x < b.end_

instance (x : Int) (b : Block) : Decidable (inBlock x b) :=
  inferInstanceAs (Decidable (_ ∧ _))

/-! ### Helper lemmas about the sweep -/

theorem finish_drop (fopt : Option (Slot → Bool)) (t : Span) :
    finish fopt t.Drop = [] := by
  simp [finish, Span.Drop, Span.Remain]

theorem applyFilter_none {Out : Type} (x : Out) :
    applyFilter none x = false := rfl

theorem applyFilter_some {Out : Type} (f : Out → Bool) (x : Out) :
    applyFilter (some f) x = f x := rfl

theorem buildOptions_nil {Out : Type} :
    (buildOptions ([] : List (Options Out → Options Out))).filterFunc = none := rfl

theorem buildOptions_withFilter {Out : Type} (f : Out → Bool) :
    (buildOptions [WithFilter f]).filterFunc = some f := rfl

/-- The filter acts purely by exclusion at the sweep level: running the
sweep with a filter equals running it unfiltered and removing the slots the
predicate marks. -/
theorem sweep_some_eq_filter (f : Slot → Bool) (bs : List Block) (t : Span) :
    sweep (some f) bs t = (sweep none bs t).filter (fun s => ! f s) := by
  induction bs generalizing t with
  | nil =>
    simp only [sweep, finish, applyFilter]
    by_cases h : t.Remain
    · by_cases hf : f t.ToSlot <;> simp [h, hf]
    · simp [h]
  | cons b bs ih =>
    simp only [sweep]
    by_cases hC : b.Contains t
    · simp [hC, finish_drop]
    · simp only [hC, if_false]
      by_cases hS : b.OverlapAtStart t
      · simp [hS, ih]
      · simp only [hS, if_false]
        by_cases hI : b.IsContainedIn t
        · by_cases hf : f (createSlotFrom t b) <;>
            simp [hI, applyFilter, hf, ih]
        · simp only [hI, if_false]
          by_cases hE : b.OverlapAtEnd t
          · by_cases hf : f (createSlotFrom t b) <;>
              simp [hE, applyFilter, hf, finish_drop]
          · simp [hE, ih]

theorem finishM_id_eq (fopt : Option (Slot → Bool)) (t : Span) :
    finishM id fopt t = finish fopt t := by
  simp [finishM, finish]

/-- The generic sweep with identity conversions is the concrete sweep. -/
theorem sweepM_id_eq (fopt : Option (Slot → Bool)) (bs : List Block) (t : Span) :
    sweepM id id fopt bs t = sweep fopt bs t := by
  induction bs generalizing t with
  | nil => simp [sweepM, sweep, finishM_id_eq]
  | cons b bs ih =>
    simp only [sweepM, sweep, id_eq]
    by_cases hC : b.Contains t
    · simp [hC, finishM_id_eq]
    · simp only [hC, if_false]
      by_cases hS : b.OverlapAtStart t
      · simp [hS, ih]
      · simp only [hS, if_false]
        by_cases hI : b.IsContainedIn t
        · by_cases hf : applyFilter fopt (createSlotFrom t b) <;>
            simp [hI, hf, ih]
        · simp only [hI, if_false]
          by_cases hE : b.OverlapAtEnd t
          · by_cases hf : applyFilter fopt (createSlotFrom t b) <;>
              simp [hE, hf, finishM_id_eq]
          · simp [hE, ih]

theorem sortInputs_eq_sortBlocks (blocks : List Block) :
    sortInputs blocks = sortBlocks blocks := rfl

theorem finish_length_le (fopt : Option (Slot → Bool)) (t : Span) :
    (finish fopt t).length ≤ 1 := by
  simp only [finish]
  split
  · split <;> simp
  · simp

theorem sweep_length_le (fopt : Option (Slot → Bool)) (bs : List Block)
    (t : Span) : (sweep fopt bs t).length ≤ bs.length + 1 := by
  induction bs generalizing t with
  | nil => simpa [sweep] using finish_length_le fopt t
  | cons b bs ih =>
    simp only [sweep]
    by_cases hC : b.Contains t
    · simp only [if_pos hC]
      have := finish_length_le fopt t.Drop
      simp only [List.length_cons]
      omega
    · simp only [hC, if_false]
      by_cases hS : b.OverlapAtStart t
      · simp only [if_pos hS]
        have := ih (t.Shorten b)
        simp only [List.length_cons]
        omega
      · simp only [hS, if_false]
        by_cases hI : b.IsContainedIn t
        · simp only [if_pos hI]
          have := ih (t.Shorten b)
          by_cases hf : applyFilter fopt (createSlotFrom t b) <;>
            · simp [hf]
              omega
        · simp only [hI, if_false]
          by_cases hE : b.OverlapAtEnd t
          · simp only [if_pos hE]
            have := finish_length_le fopt t.Drop
            by_cases hf : applyFilter fopt (createSlotFrom t b) <;>
              · simp [hf]
                omega
          · simp only [hE, if_false]
            have := ih t
            simp only [List.length_cons]
            omega

theorem finishM_length_le {Out : Type} (mapout : Slot → Out)
    (fopt : Option (Out → Bool)) (t : Span) :
    (finishM mapout fopt t).length ≤ 1 := by
  simp only [finishM]
  split
  · split <;> simp
  · simp

theorem sweepM_length_le {In Out : Type} [Period In] (mapin : In → Block)
    (mapout : Slot → Out) (fopt : Option (Out → Bool)) (bs : List In)
    (t : Span) : (sweepM mapin mapout fopt bs t).length ≤ bs.length + 1 := by
  induction bs generalizing t with
  | nil => simpa [sweepM] using finishM_length_le mapout fopt t
  | cons b bs ih =>
    simp only [sweepM]
    by_cases hC : (mapin b).Contains t
    · simp only [if_pos hC]
      have := finishM_length_le mapout fopt t.Drop
      simp only [List.length_cons]
      omega
    · simp only [hC, if_false]
      by_cases hS : (mapin b).OverlapAtStart t
      · simp only [if_pos hS]
        have := ih (t.Shorten (mapin b))
        simp only [List.length_cons]
        omega
      · simp only [hS, if_false]
        by_cases hI : (mapin b).IsContainedIn t
        · simp only [if_pos hI]
          have := ih (t.Shorten (mapin b))
          by_cases hf : applyFilter fopt (mapout (createSlotFrom t (mapin b))) <;>
            · simp [hf]
              omega
        · simp only [hI, if_false]
          by_cases hE : (mapin b).OverlapAtEnd t
          · simp only [if_pos hE]
            have := finishM_length_le mapout fopt t.Drop
            by_cases hf : applyFilter fopt (mapout (createSlotFrom t (mapin b))) <;>
              · simp [hf]
                omega
          · simp only [hE, if_false]
            have := ih t
            simp only [List.length_cons]
            omega

instance blockStartLE_total :
    IsTotal Block (fun a b => a.start ≤ b.start) :=
  ⟨fun a b => Int.le_total a.start b.start⟩

instance blockStartLE_trans :
    IsTrans Block (fun a b => a.start ≤ b.start) :=
  ⟨fun _ _ _ h1 h2 => le_trans h1 h2⟩

theorem sortBlocks_perm (blocks : List Block) :
    List.Perm (sortBlocks blocks) blocks :=
  List.perm_insertionSort _ _

theorem sortBlocks_sorted (blocks : List Block) :
    List.Sorted (fun a b : Block => a.start ≤ b.start) (sortBlocks blocks) :=
  List.sorted_insertionSort _ _

/-- Every slot the sweep emits lies inside the current working window:
its start is at or after the window's start and its end at or before the
window's end. -/
theorem sweep_mem_window (fopt : Option (Slot → Bool)) (bs : List Block)
    (t : Span) (hv : ∀ b ∈ bs, b.Valid) :
    ∀ s ∈ sweep fopt bs t, t.start ≤ s.start ∧ s.end_ ≤ t.end_ := by
  induction bs generalizing t with
  | nil =>
    intro s hs
    simp only [sweep, finish] at hs
    split at hs
    · split at hs
      · simp at hs
      · simp only [List.mem_singleton] at hs
        subst hs
        exact ⟨le_refl _, le_refl _⟩
    · simp at hs
  | cons b bs ih =>
    have hvb : b.Valid := hv b (List.mem_cons_self b bs)
    have hv' : ∀ b' ∈ bs, b'.Valid := fun b' h => hv b' (List.mem_cons_of_mem b h)
    intro s hs
    simp only [sweep] at hs
    by_cases hC : b.Contains t
    · rw [if_pos hC, finish_drop] at hs
      simp at hs
    · rw [if_neg hC] at hs
      by_cases hS : b.OverlapAtStart t
      · rw [if_pos hS] at hs
        have := ih (t.Shorten b) hv' s hs
        simp only [Block.OverlapAtStart, Span.startP_eq, Span.endP_eq] at hS
        simp only [Span.Shorten] at this
        constructor
        · exact le_trans (le_of_lt hS.2.1) this.1
        · exact this.2
      · rw [if_neg hS] at hs
        by_cases hI : b.IsContainedIn t
        · rw [if_pos hI] at hs
          simp only [Block.IsContainedIn, Span.startP_eq, Span.endP_eq] at hI
          have hkey : ∀ s' ∈ sweep fopt bs (t.Shorten b),
              t.start ≤ s'.start ∧ s'.end_ ≤ t.end_ := by
            intro s' hs'
            have := ih (t.Shorten b) hv' s' hs'
            simp only [Span.Shorten] at this
            have hbv : b.start < b.end_ := hvb
            constructor
            · have : b.end_ ≤ s'.start := this.1
              omega
            · exact this.2
          by_cases hf : applyFilter fopt (createSlotFrom t b)
          · rw [if_pos hf] at hs
            exact hkey s hs
          · rw [if_neg hf] at hs
            rcases List.mem_cons.1 hs with rfl | hs'
            · have hbv : b.start < b.end_ := hvb
              refine ⟨le_refl _, ?_⟩
              simp only [createSlotFrom]
              omega
            · exact hkey s hs'
        · rw [if_neg hI] at hs
          by_cases hE : b.OverlapAtEnd t
          · rw [if_pos hE] at hs
            simp only [Block.OverlapAtEnd, Span.startP_eq, Span.endP_eq] at hE
            rw [finish_drop] at hs
            by_cases hf : applyFilter fopt (createSlotFrom t b)
            · rw [if_pos hf] at hs
              simp at hs
            · rw [if_neg hf] at hs
              simp only [List.mem_singleton] at hs
              subst hs
              refine ⟨le_refl _, ?_⟩
              simp only [createSlotFrom]
              omega
          · rw [if_neg hE] at hs
            exact ih t hv' s hs

/-- A list of slots forming an ordered disjoint chain of non-degenerate
intervals, starting no earlier than `lo`. -/
def SlotChain : Int → List Slot → Prop
  | _, [] => True
  | lo, s :: ss => lo ≤ s.start ∧ s.start < s.end_ ∧ SlotChain s.end_ ss

theorem SlotChain.mono {lo lo' : Int} (h : lo' ≤ lo) :
    ∀ {ss : List Slot}, SlotChain lo ss → SlotChain lo' ss
  | [], _ => trivial
  | _ :: _, ⟨h1, h2, h3⟩ => ⟨le_trans h h1, h2, h3⟩

theorem finish_chain (fopt : Option (Slot → Bool)) (t : Span) :
    SlotChain t.start (finish fopt t) := by
  simp only [finish]
  split
  · split
    · trivial
    · refine ⟨le_refl _, ?_, trivial⟩
      assumption
  · trivial

/-- The sweep's output is an ordered disjoint chain of non-degenerate
slots starting no earlier than the working window's start. -/
theorem sweep_chain (fopt : Option (Slot → Bool)) (bs : List Block)
    (t : Span) (hv : ∀ b ∈ bs, b.Valid) :
    SlotChain t.start (sweep fopt bs t) := by
  induction bs generalizing t with
  | nil => exact finish_chain fopt t
  | cons b bs ih =>
    have hvb : b.start < b.end_ := hv b (List.mem_cons_self b bs)
    have hv' : ∀ b' ∈ bs, b'.Valid := fun b' h => hv b' (List.mem_cons_of_mem b h)
    simp only [sweep]
    by_cases hC : b.Contains t
    · rw [if_pos hC, finish_drop]
      trivial
    · rw [if_neg hC]
      by_cases hS : b.OverlapAtStart t
      · rw [if_pos hS]
        simp only [Block.OverlapAtStart, Span.startP_eq, Span.endP_eq] at hS
        have := ih (t.Shorten b) hv'
        simp only [Span.Shorten] at this
        exact this.mono (le_of_lt hS.2.1)
      · rw [if_neg hS]
        by_cases hI : b.IsContainedIn t
        · rw [if_pos hI]
          simp only [Block.IsContainedIn, Span.startP_eq, Span.endP_eq] at hI
          simp only [Block.OverlapAtStart, Span.startP_eq, Span.endP_eq, not_and,
            not_lt] at hS
          have hlt : t.start < b.start := by
            rcases lt_or_eq_of_le hI.1 with h | h
            · exact h
            · exfalso
              have h1 : b.start ≤ t.start := le_of_eq h.symm
              have h2 : t.start < b.end_ := by omega
              have := hS h1 h2
              omega
          have hrest := ih (t.Shorten b) hv'
          simp only [Span.Shorten] at hrest
          by_cases hf : applyFilter fopt (createSlotFrom t b)
          · rw [if_pos hf]
            exact hrest.mono (by omega)
          · rw [if_neg hf]
            refine ⟨le_refl _, hlt, ?_⟩
            show SlotChain b.start (sweep fopt bs (t.Shorten b))
            exact hrest.mono (by omega)
        · rw [if_neg hI]
          by_cases hE : b.OverlapAtEnd t
          · rw [if_pos hE]
            simp only [Block.OverlapAtEnd, Span.startP_eq, Span.endP_eq] at hE
            simp only [Block.Contains, Span.startP_eq, Span.endP_eq, not_and,
              not_le] at hC
            have hlt : t.start < b.start := by
              by_contra h
              have h1 : b.start ≤ t.start := by omega
              have := hC h1
              omega
            rw [finish_drop]
            by_cases hf : applyFilter fopt (createSlotFrom t b)
            · rw [if_pos hf]
              trivial
            · rw [if_neg hf]
              exact ⟨le_refl _, hlt, trivial⟩
          · rw [if_neg hE]
            exact ih t hv'

/-- A chain yields the pairwise ordering/disjointness facts plus bounds. -/
theorem SlotChain.pairwise :
    ∀ {lo : Int} {ss : List Slot}, SlotChain lo ss →
      List.Pairwise (fun a b : Slot => a.end_ ≤ b.start ∧ a.start < b.start) ss ∧
      ∀ s ∈ ss, lo ≤ s.start ∧ s.start < s.end_ := by
  intro lo ss
  induction ss generalizing lo with
  | nil => intro _; exact ⟨List.Pairwise.nil, by simp⟩
  | cons s ss ih =>
    intro h
    obtain ⟨h1, h2, h3⟩ := h
    obtain ⟨hp, hb⟩ := ih h3
    refine ⟨List.Pairwise.cons ?_ hp, ?_⟩
    · intro s' hs'
      have := hb s' hs'
      exact ⟨this.1, by omega⟩
    · intro s' hs'
      rcases List.mem_cons.1 hs' with rfl | hs''
      · exact ⟨h1, h2⟩
      · have := hb s' hs''
        constructor
        · omega
        · exact this.2

/-- Coverage of the unfiltered sweep over a start-sorted list of
well-formed blocks: a point of the working window lies in some emitted
slot exactly when it lies in no block. -/
theorem sweep_cover (bs : List Block) :
    ∀ t : Span, (∀ b ∈ bs, b.Valid) →
      List.Sorted (fun a b : Block => a.start ≤ b.start) bs →
      ∀ x : Int, t.start ≤ x → x < t.end_ →
      ((∃ s ∈ sweep none bs t, inSlot x s) ↔ ¬∃ b ∈ bs, inBlock x b) := by
  induction bs with
  | nil =>
    intro t _ _ x hx1 hx2
    have hrem : t.Remain := lt_of_le_of_lt hx1 hx2
    simp only [sweep, finish, if_pos hrem, applyFilter, Bool.false_eq_true,
      if_false]
    simp [inSlot, Span.ToSlot]
    omega
  | cons b bs ih =>
    intro t hv hs x hx1 hx2
    have hvb : b.start < b.end_ := hv b (List.mem_cons_self b bs)
    have hv' : ∀ b' ∈ bs, b'.Valid := fun b' h => hv b' (List.mem_cons_of_mem b h)
    have hb_le : ∀ b' ∈ bs, b.start ≤ b'.start := (List.sorted_cons.1 hs).1
    have hs' : List.Sorted (fun a b : Block => a.start ≤ b.start) bs :=
      (List.sorted_cons.1 hs).2
    simp only [sweep]
    by_cases hC : b.Contains t
    · rw [if_pos hC, finish_drop]
      simp only [Block.Contains, Span.startP_eq, Span.endP_eq] at hC
      apply iff_of_false
      · simp
      · exact not_not_intro
          ⟨b, List.mem_cons_self b bs, ⟨by omega, by omega⟩⟩
    · rw [if_neg hC]
      by_cases hS : b.OverlapAtStart t
      · rw [if_pos hS]
        simp only [Block.OverlapAtStart, Span.startP_eq, Span.endP_eq] at hS
        by_cases hxe : x < b.end_
        · apply iff_of_false
          · rintro ⟨s, hsmem, hsx⟩
            have := sweep_mem_window none bs (t.Shorten b) hv' s hsmem
            simp only [Span.Shorten] at this
            simp only [inSlot] at hsx
            omega
          · exact not_not_intro
              ⟨b, List.mem_cons_self b bs, ⟨by omega, hxe⟩⟩
        · push_neg at hxe
          have hIH := ih (t.Shorten b) hv' hs' x
            (by simp only [Span.Shorten]; omega)
            (by simp only [Span.Shorten]; omega)
          rw [hIH]
          constructor
          · intro hnb
            rintro ⟨b', hm, hxb'⟩
            rcases List.mem_cons.1 hm with rfl | hm'
            · simp only [inBlock] at hxb'
              omega
            · exact hnb ⟨b', hm', hxb'⟩
          · intro hnb
            rintro ⟨b', hm, hxb'⟩
            exact hnb ⟨b', List.mem_cons_of_mem b hm, hxb'⟩
      · rw [if_neg hS]
        by_cases hI : b.IsContainedIn t
        · rw [if_pos hI]
          rw [if_neg (by simp [applyFilter] :
            ¬(applyFilter none (createSlotFrom t b) = true))]
          simp only [Block.IsContainedIn, Span.startP_eq, Span.endP_eq] at hI
          simp only [Block.OverlapAtStart, Span.startP_eq, Span.endP_eq,
            not_and, not_le] at hS
          have hlt : t.start < b.start := by
            by_contra h
            have h1 : b.start ≤ t.start := by omega
            have h2 := hS h1 (by omega)
            omega
          by_cases hxs : x < b.start
          · apply iff_of_true
            · exact ⟨createSlotFrom t b, List.mem_cons_self _ _, ⟨hx1, hxs⟩⟩
            · rintro ⟨b', hm, hxb'⟩
              rcases List.mem_cons.1 hm with rfl | hm'
              · simp only [inBlock] at hxb'
                omega
              · have := hb_le b' hm'
                simp only [inBlock] at hxb'
                omega
          · by_cases hxe : x < b.end_
            · apply iff_of_false
              · rintro ⟨s, hsmem, hsx⟩
                rcases List.mem_cons.1 hsmem with rfl | hm'
                · simp only [inSlot, createSlotFrom] at hsx
                  omega
                · have := sweep_mem_window none bs (t.Shorten b) hv' s hm'
                  simp only [Span.Shorten] at this
                  simp only [inSlot] at hsx
                  omega
              · exact not_not_intro
                  ⟨b, List.mem_cons_self b bs, ⟨by omega, hxe⟩⟩
            · push_neg at hxe
              have hIH := ih (t.Shorten b) hv' hs' x
                (by simp only [Span.Shorten]; omega)
                (by simp only [Span.Shorten]; omega)
              constructor
              · rintro ⟨s, hsmem, hsx⟩
                rcases List.mem_cons.1 hsmem with rfl | hm'
                · simp only [inSlot, createSlotFrom] at hsx
                  omega
                · have hres := hIH.1 ⟨s, hm', hsx⟩
                  rintro ⟨b', hm, hxb'⟩
                  rcases List.mem_cons.1 hm with rfl | hm2
                  · simp only [inBlock] at hxb'
                    omega
                  · exact hres ⟨b', hm2, hxb'⟩
              · intro hnb
                have hnb' : ¬∃ b' ∈ bs, inBlock x b' := by
                  rintro ⟨b', hm, hxb'⟩
                  exact hnb ⟨b', List.mem_cons_of_mem b hm, hxb'⟩
                obtain ⟨s, hm, hxs⟩ := hIH.2 hnb'
                exact ⟨s, List.mem_cons_of_mem _ hm, hxs⟩
        · rw [if_neg hI]
          by_cases hE : b.OverlapAtEnd t
          · rw [if_pos hE]
            rw [if_neg (by simp [applyFilter] :
              ¬(applyFilter none (createSlotFrom t b) = true))]
            rw [finish_drop]
            simp only [Block.OverlapAtEnd, Span.startP_eq, Span.endP_eq] at hE
            simp only [Block.Contains, Span.startP_eq, Span.endP_eq,
              not_and, not_le] at hC
            have hlt : t.start < b.start := by
              by_contra h
              have h1 : b.start ≤ t.start := by omega
              have := hC h1
              omega
            by_cases hxs : x < b.start
            · apply iff_of_true
              · exact ⟨createSlotFrom t b, List.mem_cons_self _ _, ⟨hx1, hxs⟩⟩
              · rintro ⟨b', hm, hxb'⟩
                rcases List.mem_cons.1 hm with rfl | hm'
                · simp only [inBlock] at hxb'
                  omega
                · have := hb_le b' hm'
                  simp only [inBlock] at hxb'
                  omega
            · apply iff_of_false
              · rintro ⟨s, hsmem, hsx⟩
                rcases List.mem_cons.1 hsmem with rfl | hm'
                · simp only [inSlot, createSlotFrom] at hsx
                  omega
                · simp at hm'
              · exact not_not_intro
                  ⟨b, List.mem_cons_self b bs, ⟨by omega, by omega⟩⟩
          · rw [if_neg hE]
            simp only [Block.Contains, Span.startP_eq, Span.endP_eq,
              not_and, not_le] at hC
            simp only [Block.OverlapAtStart, Span.startP_eq, Span.endP_eq,
              not_and, not_le, not_lt] at hS
            simp only [Block.IsContainedIn, Span.startP_eq, Span.endP_eq,
              not_and, not_le] at hI
            simp only [Block.OverlapAtEnd, Span.startP_eq, Span.endP_eq,
              not_and, not_le, not_lt] at hE
            have hdisj : b.end_ ≤ t.start ∨ t.end_ ≤ b.start := by
              by_contra h
              push_neg at h
              rcases le_or_lt b.start t.start with h1 | h1
              · rcases le_or_lt b.end_ t.end_ with h2 | h2
                · have := hS h1 h.1
                  omega
                · have := hC h1
                  omega
              · rcases le_or_lt b.end_ t.end_ with h2 | h2
                · have := hI (le_of_lt h1)
                  omega
                · have := hE (le_of_lt h1) h.2
                  omega
            have hnbx : ¬ inBlock x b := by
              simp only [inBlock]
              rcases hdisj with h | h
              · intro hc
                omega
              · intro hc
                omega
            have hsplit :
                (∃ b' ∈ b :: bs, inBlock x b') ↔ ∃ b' ∈ bs, inBlock x b' := by
              constructor
              · rintro ⟨b', hm, hx'⟩
                rcases List.mem_cons.1 hm with rfl | hm'
                · exact absurd hx' hnbx
                · exact ⟨b', hm', hx'⟩
              · rintro ⟨b', hm, hx'⟩
                exact ⟨b', List.mem_cons_of_mem _ hm, hx'⟩
            rw [hsplit]
            exact ih t hv' hs' x hx1 hx2

/-! ### Effect-instrumented embedding of `Find`

The Go routine has three observable effects besides its return value: the
caller's block slice is re-sorted in place, the caller's span object is (or
is not) mutated, and the caller's filter closure is invoked some number of
times.  `FindFull` is the same translation of `src/finder.go:111-179` with
those effects made explicit: the state threaded through the loop carries
the caller's span alongside the working clone (`target`), every mutating
span method is applied to the `target` component exactly where the source
applies it, and every guarded filter call bumps a counter. -/

structure SweepState where
  caller : Span
  target : Span
  fcalls : Nat
deriving DecidableEq, Repr

/-- One guarded filter check `options.IsSetFilter() && options.FilterFunc(s)`:
the closure runs (and is counted) only when the option is set. -/
def bumpFilter (o : Options Slot) (st : SweepState) : SweepState :=
  if o.IsSetFilter then { st with fcalls := st.fcalls + 1 } else st

/-- Trailing emission (`src/finder.go:169-178`), instrumented. -/
def finishFull (o : Options Slot) (st : SweepState) : List Slot × SweepState :=
  if st.target.Remain then
    let s := st.target.ToSlot
    let st1 := bumpFilter o st
    if applyFilter o.filterFunc s then ([], st1) else ([s], st1)
  else ([], st)

/-- The sweep loop (`src/finder.go:134-167`), instrumented. -/
def sweepFull (o : Options Slot) :
    List Block → SweepState → List Slot × SweepState
  | [], st => finishFull o st
  | b :: bs, st =>
    let t := st.target
    if b.Contains t then finishFull o { st with target := t.Drop }
    else if b.OverlapAtStart t then
      sweepFull o bs { st with target := t.Shorten b }
    else if b.IsContainedIn t then
      let s := createSlotFrom t b
      let st1 := bumpFilter o { st with target := t.Shorten b }
      if applyFilter o.filterFunc s then sweepFull o bs st1
      else
        let out := sweepFull o bs st1
        (s :: out.1, out.2)
    else if b.OverlapAtEnd t then
      let s := createSlotFrom t b
      let st1 := bumpFilter o { st with target := t.Drop }
      if applyFilter o.filterFunc s then finishFull o st1
      else
        let out := finishFull o st1
        (s :: out.1, out.2)
    else sweepFull o bs st

/-- The observable outcome of one `Find` call: returned slots, the block
slice after the call, the caller's span after the call, and how many times
the filter ran. -/
structure FindResult where
  slots : List Slot
  blocksAfter : List Block
  spanAfter : Option Span
  filterCalls : Nat
deriving DecidableEq, Repr

/-- `Find` (`src/finder.go:111-179`) with its effects explicit: the early
exits return before the sort and before any predicate or filter runs. -/
def FindFull (blocks : List Block) (span : Option Span)
    (opts : List (Options Slot → Options Slot)) : FindResult :=
  let options := buildOptions opts
  match span with
  | none => ⟨[], blocks, none, 0⟩
  | some sp =>
    if sp.Remain then
      match blocks with
      | [] => ⟨[(sp.Clone).ToSlot], blocks, some sp, 0⟩
      | _ :: _ =>
        let out := sweepFull options (sortBlocks blocks) ⟨sp, sp.Clone, 0⟩
        ⟨out.1, sortBlocks blocks, some out.2.caller, out.2.fcalls⟩
    else ⟨[], blocks, some sp, 0⟩

theorem bumpFilter_caller (o : Options Slot) (st : SweepState) :
    (bumpFilter o st).caller = st.caller := by
  simp only [bumpFilter]
  split <;> rfl

theorem bumpFilter_target (o : Options Slot) (st : SweepState) :
    (bumpFilter o st).target = st.target := by
  simp only [bumpFilter]
  split <;> rfl

theorem finishFull_caller (o : Options Slot) (st : SweepState) :
    ((finishFull o st).2).caller = st.caller := by
  simp only [finishFull]
  split
  · split <;> simp [bumpFilter_caller]
  · rfl

/-- The sweep loop never writes the caller's span: only the `target`
component of the state is ever replaced. -/
theorem sweepFull_caller (o : Options Slot) (bs : List Block) :
    ∀ st : SweepState, ((sweepFull o bs st).2).caller = st.caller := by
  induction bs with
  | nil => intro st; exact finishFull_caller o st
  | cons b bs ih =>
    intro st
    simp only [sweepFull]
    by_cases hC : b.Contains st.target
    · rw [if_pos hC]
      exact finishFull_caller o _
    · rw [if_neg hC]
      by_cases hS : b.OverlapAtStart st.target
      · rw [if_pos hS]
        exact ih _
      · rw [if_neg hS]
        by_cases hI : b.IsContainedIn st.target
        · rw [if_pos hI]
          by_cases hf : applyFilter o.filterFunc (createSlotFrom st.target b)
          · rw [if_pos hf]
            rw [ih _]
            exact bumpFilter_caller o _
          · rw [if_neg hf]
            show ((sweepFull o bs _).2).caller = st.caller
            rw [ih _]
            exact bumpFilter_caller o _
        · rw [if_neg hI]
          by_cases hE : b.OverlapAtEnd st.target
          · rw [if_pos hE]
            by_cases hf : applyFilter o.filterFunc (createSlotFrom st.target b)
            · rw [if_pos hf]
              rw [finishFull_caller o _]
              exact bumpFilter_caller o _
            · rw [if_neg hf]
              show ((finishFull o _).2).caller = st.caller
              rw [finishFull_caller o _]
              exact bumpFilter_caller o _
          · rw [if_neg hE]
            exact ih st

theorem finishFull_fst (o : Options Slot) (st : SweepState) :
    (finishFull o st).1 = finish o.filterFunc st.target := by
  simp only [finishFull, finish]
  split
  · split <;> rfl
  · rfl

/-- The instrumented sweep returns the same slots as the pure one. -/
theorem sweepFull_fst (o : Options Slot) (bs : List Block) :
    ∀ st : SweepState,
      (sweepFull o bs st).1 = sweep o.filterFunc bs st.target := by
  induction bs with
  | nil => intro st; exact finishFull_fst o st
  | cons b bs ih =>
    intro st
    simp only [sweepFull, sweep]
    by_cases hC : b.Contains st.target
    · rw [if_pos hC, if_pos hC]
      have h := finishFull_fst o { st with target := st.target.Drop }
      exact h
    · rw [if_neg hC, if_neg hC]
      by_cases hS : b.OverlapAtStart st.target
      · rw [if_pos hS, if_pos hS]
        exact ih _
      · rw [if_neg hS, if_neg hS]
        by_cases hI : b.IsContainedIn st.target
        · rw [if_pos hI, if_pos hI]
          by_cases hf : applyFilter o.filterFunc (createSlotFrom st.target b)
          · rw [if_pos hf, if_pos hf]
            have h := ih (bumpFilter o { st with target := st.target.Shorten b })
            rwa [bumpFilter_target] at h
          · rw [if_neg hf, if_neg hf]
            have h := ih (bumpFilter o { st with target := st.target.Shorten b })
            rw [bumpFilter_target] at h
            simp only [h]
        · rw [if_neg hI, if_neg hI]
          by_cases hE : b.OverlapAtEnd st.target
          · rw [if_pos hE, if_pos hE]
            by_cases hf : applyFilter o.filterFunc (createSlotFrom st.target b)
            · rw [if_pos hf, if_pos hf]
              have h := finishFull_fst o
                (bumpFilter o { st with target := st.target.Drop })
              rwa [bumpFilter_target] at h
            · rw [if_neg hf, if_neg hf]
              have h := finishFull_fst o
                (bumpFilter o { st with target := st.target.Drop })
              rw [bumpFilter_target] at h
              simp only [h]
          · rw [if_neg hE, if_neg hE]
            exact ih st

/-- The slots component of the instrumented call agrees with `Find`. -/
theorem findFull_slots (blocks : List Block) (span : Option Span)
    (opts : List (Options Slot → Options Slot)) :
    (FindFull blocks span opts).slots = Find blocks span opts := by
  cases span with
  | none => rfl
  | some sp =>
    by_cases hr : sp.Remain
    · cases blocks with
      | nil => simp [FindFull, Find, hr]
      | cons b bs =>
        simp only [FindFull, Find, if_pos hr]
        exact sweepFull_fst _ _ _
    · simp [FindFull, Find, hr]

/-! ### Effect-instrumented embedding of `FindWithMapper`

The same instrumentation for the generic entry point
(`src/finder.go:38-107`): the caller's span is threaded next to the
working clone created at `src/finder.go:50`, every span mutation of the
source is applied to the `target` component, and each guarded filter call
bumps the counter. -/

/-- One guarded filter check of the generic variant. -/
def bumpFilterM {Out : Type} (o : Options Out) (st : SweepState) : SweepState :=
  if o.IsSetFilter then { st with fcalls := st.fcalls + 1 } else st

/-- Trailing emission of `FindWithMapper` (`src/finder.go:97-106`),
instrumented. -/
def finishFullM {Out : Type} (mapout : Slot → Out) (o : Options Out)
    (st : SweepState) : List Out × SweepState :=
  if st.target.Remain then
    let s := mapout st.target.ToSlot
    let st1 := bumpFilterM o st
    if applyFilter o.filterFunc s then ([], st1) else ([s], st1)
  else ([], st)

/-- The sweep loop of `FindWithMapper` (`src/finder.go:61-95`),
instrumented. -/
def sweepFullM {In Out : Type} [Period In] (mapin : In → Block)
    (mapout : Slot → Out) (o : Options Out) :
    List In → SweepState → List Out × SweepState
  | [], st => finishFullM mapout o st
  | i :: is, st =>
    let t := st.target
    let b := mapin i
    if b.Contains t then finishFullM mapout o { st with target := t.Drop }
    else if b.OverlapAtStart t then
      sweepFullM mapin mapout o is { st with target := t.Shorten b }
    else if b.IsContainedIn t then
      let s := mapout (createSlotFrom t b)
      let st1 := bumpFilterM o { st with target := t.Shorten b }
      if applyFilter o.filterFunc s then sweepFullM mapin mapout o is st1
      else
        let out := sweepFullM mapin mapout o is st1
        (s :: out.1, out.2)
    else if b.OverlapAtEnd t then
      let s := mapout (createSlotFrom t b)
      let st1 := bumpFilterM o { st with target := t.Drop }
      if applyFilter o.filterFunc s then finishFullM mapout o st1
      else
        let out := finishFullM mapout o st1
        (s :: out.1, out.2)
    else sweepFullM mapin mapout o is st

/-- The observable outcome of one `FindWithMapper` call. -/
structure FindResultM (In Out : Type) where
  slots : List Out
  inputsAfter : List In
  spanAfter : Option Span
  filterCalls : Nat

/-- `FindWithMapper` (`src/finder.go:38-107`) with its effects explicit. -/
def FindFullM {In Out : Type} [Period In] (inputs : List In)
    (span : Option Span) (mapin : In → Block) (mapout : Slot → Out)
    (opts : List (Options Out → Options Out)) : FindResultM In Out :=
  let options := buildOptions opts
  match span with
  | none => ⟨[], inputs, none, 0⟩
  | some sp =>
    if sp.Remain then
      match inputs with
      | [] => ⟨[mapout (sp.Clone).ToSlot], inputs, some sp, 0⟩
      | _ :: _ =>
        let out := sweepFullM mapin mapout options (sortInputs inputs)
          ⟨sp, sp.Clone, 0⟩
        ⟨out.1, sortInputs inputs, some out.2.caller, out.2.fcalls⟩
    else ⟨[], inputs, some sp, 0⟩

theorem bumpFilterM_caller {Out : Type} (o : Options Out) (st : SweepState) :
    (bumpFilterM o st).caller = st.caller := by
  simp only [bumpFilterM]
  split <;> rfl

theorem bumpFilterM_target {Out : Type} (o : Options Out) (st : SweepState) :
    (bumpFilterM o st).target = st.target := by
  simp only [bumpFilterM]
  split <;> rfl

theorem finishFullM_caller {Out : Type} (mapout : Slot → Out)
    (o : Options Out) (st : SweepState) :
    ((finishFullM mapout o st).2).caller = st.caller := by
  simp only [finishFullM]
  split
  · split <;> simp [bumpFilterM_caller]
  · rfl

/-- The generic sweep loop never writes the caller's span either. -/
theorem sweepFullM_caller {In Out : Type} [Period In] (mapin : In → Block)
    (mapout : Slot → Out) (o : Options Out) (is : List In) :
    ∀ st : SweepState,
      ((sweepFullM mapin mapout o is st).2).caller = st.caller := by
  induction is with
  | nil => intro st; exact finishFullM_caller mapout o st
  | cons i is ih =>
    intro st
    simp only [sweepFullM]
    by_cases hC : (mapin i).Contains st.target
    · rw [if_pos hC]
      exact finishFullM_caller mapout o _
    · rw [if_neg hC]
      by_cases hS : (mapin i).OverlapAtStart st.target
      · rw [if_pos hS]
        exact ih _
      · rw [if_neg hS]
        by_cases hI : (mapin i).IsContainedIn st.target
        · rw [if_pos hI]
          by_cases hf : applyFilter o.filterFunc
            (mapout (createSlotFrom st.target (mapin i)))
          · rw [if_pos hf]
            rw [ih _]
            exact bumpFilterM_caller o _
          · rw [if_neg hf]
            show ((sweepFullM mapin mapout o is _).2).caller = st.caller
            rw [ih _]
            exact bumpFilterM_caller o _
        · rw [if_neg hI]
          by_cases hE : (mapin i).OverlapAtEnd st.target
          · rw [if_pos hE]
            by_cases hf : applyFilter o.filterFunc
              (mapout (createSlotFrom st.target (mapin i)))
            · rw [if_pos hf]
              rw [finishFullM_caller mapout o _]
              exact bumpFilterM_caller o _
            · rw [if_neg hf]
              show ((finishFullM mapout o _).2).caller = st.caller
              rw [finishFullM_caller mapout o _]
              exact bumpFilterM_caller o _
          · rw [if_neg hE]
            exact ih st

theorem finishFullM_fst {Out : Type} (mapout : Slot → Out) (o : Options Out)
    (st : SweepState) :
    (finishFullM mapout o st).1 = finishM mapout o.filterFunc st.target := by
  simp only [finishFullM, finishM]
  split
  · split <;> rfl
  · rfl

/-- The instrumented generic sweep returns the same values as the pure
one. -/
theorem sweepFullM_fst {In Out : Type} [Period In] (mapin : In → Block)
    (mapout : Slot → Out) (o : Options Out) (is : List In) :
    ∀ st : SweepState,
      (sweepFullM mapin mapout o is st).1 =
        sweepM mapin mapout o.filterFunc is st.target := by
  induction is with
  | nil => intro st; exact finishFullM_fst mapout o st
  | cons i is ih =>
    intro st
    simp only [sweepFullM, sweepM]
    by_cases hC : (mapin i).Contains st.target
    · rw [if_pos hC, if_pos hC]
      exact finishFullM_fst mapout o _
    · rw [if_neg hC, if_neg hC]
      by_cases hS : (mapin i).OverlapAtStart st.target
      · rw [if_pos hS, if_pos hS]
        exact ih _
      · rw [if_neg hS, if_neg hS]
        by_cases hI : (mapin i).IsContainedIn st.target
        · rw [if_pos hI, if_pos hI]
          by_cases hf : applyFilter o.filterFunc
            (mapout (createSlotFrom st.target (mapin i)))
          · rw [if_pos hf, if_pos hf]
            have h := ih (bumpFilterM o { st with target := st.target.Shorten (mapin i) })
            rwa [bumpFilterM_target] at h
          · rw [if_neg hf, if_neg hf]
            have h := ih (bumpFilterM o { st with target := st.target.Shorten (mapin i) })
            rw [bumpFilterM_target] at h
            simp only [h]
        · rw [if_neg hI, if_neg hI]
          by_cases hE : (mapin i).OverlapAtEnd st.target
          · rw [if_pos hE, if_pos hE]
            by_cases hf : applyFilter o.filterFunc
              (mapout (createSlotFrom st.target (mapin i)))
            · rw [if_pos hf, if_pos hf]
              have h := finishFullM_fst mapout o
                (bumpFilterM o { st with target := st.target.Drop })
              rwa [bumpFilterM_target] at h
            · rw [if_neg hf, if_neg hf]
              have h := finishFullM_fst mapout o
                (bumpFilterM o { st with target := st.target.Drop })
              rw [bumpFilterM_target] at h
              simp only [h]
          · rw [if_neg hE, if_neg hE]
            exact ih st

/-- The slots component of the instrumented generic call agrees with
`FindWithMapper`. -/
theorem findFullM_slots {In Out : Type} [Period In] (inputs : List In)
    (span : Option Span) (mapin : In → Block) (mapout : Slot → Out)
    (opts : List (Options Out → Options Out)) :
    (FindFullM inputs span mapin mapout opts).slots =
      FindWithMapper inputs span mapin mapout opts := by
  cases span with
  | none => rfl
  | some sp =>
    by_cases hr : sp.Remain
    · cases inputs with
      | nil => simp [FindFullM, FindWithMapper, hr]
      | cons i is =>
        simp only [FindFullM, FindWithMapper, if_pos hr]
        exact sweepFullM_fst _ _ _ _ _
    · simp [FindFullM, FindWithMapper, hr]

theorem find_nil_blocks (sp : Span)
    (opts : List (Options Slot → Options Slot)) (h : sp.Remain) :
    Find [] (some sp) opts = [⟨sp.start, sp.end_⟩] := by
  simp [Find, h, Span.Clone, Span.ToSlot]

theorem find_cons_eq (b : Block) (bs : List Block) (sp : Span)
    (opts : List (Options Slot → Options Slot)) (hr : sp.Remain) :
    Find (b :: bs) (some sp) opts =
      sweep (buildOptions opts).filterFunc (sortBlocks (b :: bs)) sp.Clone := by
  simp [Find, hr]

/-! ### The claims -/

/-- C1: for a span with `Start < End` and well-formed blocks, with no
filter supplied, every point of the span lies in exactly one of: some
returned slot, or some block.  In particular the slots and the span-clipped
blocks tile the span with no gap and no overlap. -/
theorem find_coverage_exact (blocks : List Block) (sp : Span)
    (hsp : sp.Remain) (hv : ∀ b ∈ blocks, b.Valid)
    (x : Int) (hx1 : sp.start ≤ x) (hx2 : x < sp.end_) :
    Xor' (∃ s ∈ Find blocks (some sp) [], inSlot x s)
      (∃ b ∈ blocks, inBlock x b) := by
  cases blocks with
  | nil =>
    refine Or.inl ⟨⟨⟨sp.start, sp.end_⟩, ?_, ⟨hx1, hx2⟩⟩, ?_⟩
    · rw [find_nil_blocks sp [] hsp]
      exact List.mem_singleton.2 rfl
    · simp
  | cons b bs =>
    have hv' : ∀ b' ∈ sortBlocks (b :: bs), b'.Valid := fun b' h =>
      hv b' ((sortBlocks_perm (b :: bs)).mem_iff.1 h)
    have hiff := sweep_cover (sortBlocks (b :: bs)) sp.Clone hv'
      (sortBlocks_sorted (b :: bs)) x hx1 hx2
    have hmem : (∃ b' ∈ sortBlocks (b :: bs), inBlock x b') ↔
        ∃ b' ∈ b :: bs, inBlock x b' := by
      constructor
      · rintro ⟨b', hm, hx'⟩
        exact ⟨b', (sortBlocks_perm _).mem_iff.1 hm, hx'⟩
      · rintro ⟨b', hm, hx'⟩
        exact ⟨b', (sortBlocks_perm _).mem_iff.2 hm, hx'⟩
    rw [find_cons_eq b bs sp [] hsp]
    by_cases hb : ∃ b' ∈ b :: bs, inBlock x b'
    · exact Or.inr ⟨hb, fun ha => (hiff.1 ha) (hmem.2 hb)⟩
    · exact Or.inl ⟨hiff.2 (fun hc => hb (hmem.1 hc)), hb⟩

/-- Witness for C1: span `[0,8)`, blocks `[[1,5)]`, point `3`. -/
theorem find_coverage_exact_witness :
    Span.Remain ⟨0, 8⟩ ∧ (∀ b ∈ [(⟨1, 5⟩ : Block)], b.Valid) ∧
    Span.start ⟨0, 8⟩ ≤ 3 ∧ (3 : Int) < Span.end_ ⟨0, 8⟩ ∧
    Xor' (∃ s ∈ Find [⟨1, 5⟩] (some ⟨0, 8⟩) [], inSlot 3 s)
      (∃ b ∈ [(⟨1, 5⟩ : Block)], inBlock 3 b) :=
  ⟨by decide, by decide, by decide, by decide,
    find_coverage_exact [⟨1, 5⟩] ⟨0, 8⟩ (by decide) (by decide) 3
      (by decide) (by decide)⟩

/-- C2: for every span (including `nil`), well-formed blocks and any
filter, the returned slots are pairwise disjoint (each ends no later than
the next starts), strictly increasing in start, and non-degenerate. -/
theorem find_disjoint_ordered_nondegenerate (blocks : List Block)
    (span : Option Span) (opts : List (Options Slot → Options Slot))
    (hv : ∀ b ∈ blocks, b.Valid) :
    List.Pairwise (fun a b : Slot => a.end_ ≤ b.start ∧ a.start < b.start)
      (Find blocks span opts) ∧
    ∀ s ∈ Find blocks span opts, s.start < s.end_ := by
  cases span with
  | none => exact ⟨by simp [Find], by simp [Find]⟩
  | some sp =>
    by_cases hr : sp.Remain
    · cases blocks with
      | nil =>
        rw [find_nil_blocks sp opts hr]
        refine ⟨List.pairwise_singleton _ _, ?_⟩
        intro s hs
        rw [List.mem_singleton] at hs
        subst hs
        exact hr
      | cons b bs =>
        rw [find_cons_eq b bs sp opts hr]
        have hv' : ∀ b' ∈ sortBlocks (b :: bs), b'.Valid := fun b' h =>
          hv b' ((sortBlocks_perm _).mem_iff.1 h)
        have hchain := sweep_chain (buildOptions opts).filterFunc
          (sortBlocks (b :: bs)) sp.Clone hv'
        have hp := hchain.pairwise
        exact ⟨hp.1, fun s hs => (hp.2 s hs).2⟩
    · constructor <;> simp [Find, hr]

/-- Witness for C2: overlapping blocks `[1,4)`, `[2,5)` in span `[0,8)`. -/
theorem find_disjoint_ordered_nondegenerate_witness :
    (∀ b ∈ [(⟨1, 4⟩ : Block), ⟨2, 5⟩], b.Valid) ∧
    (List.Pairwise (fun a b : Slot => a.end_ ≤ b.start ∧ a.start < b.start)
      (Find [⟨1, 4⟩, ⟨2, 5⟩] (some ⟨0, 8⟩) []) ∧
    ∀ s ∈ Find [⟨1, 4⟩, ⟨2, 5⟩] (some ⟨0, 8⟩) [], s.start < s.end_) :=
  ⟨by decide,
    find_disjoint_ordered_nondegenerate [⟨1, 4⟩, ⟨2, 5⟩] (some ⟨0, 8⟩) []
      (by decide)⟩

/-- C3 counterexample: with an empty block collection the code returns the
whole-span slot *without* consulting the filter (`src/finder.go:124-126`),
so a filter that is true on the whole-span slot does not empty the
result, contrary to the claim. -/
theorem find_empty_blocks_filter_counterexample :
    Find [] (some ⟨0, 1⟩) [WithFilter (fun _ => true)] ≠ [] ∧
    Find [] (some ⟨0, 1⟩) [WithFilter (fun _ => true)] = [⟨0, 1⟩] :=
  ⟨by decide, by decide⟩

/-- C3 (amended): for a non-nil span with `Start < End` and an empty block
collection, `Find` returns the single whole-span slot regardless of any
filter option — the filter is not applied on this path. -/
theorem find_empty_blocks_whole_span (sp : Span)
    (opts : List (Options Slot → Options Slot)) (h : sp.Remain) :
    Find [] (some sp) opts = [⟨sp.start, sp.end_⟩] :=
  find_nil_blocks sp opts h

/-- Witness for the amended C3: span `[0,2)` with an always-true filter. -/
theorem find_empty_blocks_whole_span_witness :
    Span.Remain ⟨0, 2⟩ ∧
    Find [] (some ⟨0, 2⟩) [WithFilter (fun _ => true)] = [⟨0, 2⟩] :=
  ⟨by decide,
    find_empty_blocks_whole_span ⟨0, 2⟩ [WithFilter (fun _ => true)]
      (by decide)⟩

/-- C4 counterexample: on an empty block list the filtered call keeps the
whole-span slot while the unfiltered-then-remove form drops it, so the
exclusion law fails there. -/
theorem find_filter_law_counterexample :
    Find [] (some ⟨0, 1⟩) [WithFilter (fun _ => true)] ≠
      (Find [] (some ⟨0, 1⟩) []).filter
        (fun s => ! (fun _ : Slot => true) s) := by decide

/-- C4 (amended): for every *non-empty* list of well-formed blocks, every
span and every filter `f`, the filtered call equals the unfiltered call
with every slot on which `f` is true removed. -/
theorem find_filter_exclusion_law (blocks : List Block) (span : Option Span)
    (f : Slot → Bool) (hne : blocks ≠ [])
    (hv : ∀ b ∈ blocks, b.Valid) :
    Find blocks span [WithFilter f] =
      (Find blocks span []).filter (fun s => ! f s) := by
  cases span with
  | none => rfl
  | some sp =>
    by_cases hr : sp.Remain
    · cases blocks with
      | nil => exact absurd rfl hne
      | cons b bs =>
        rw [find_cons_eq b bs sp [WithFilter f] hr,
          find_cons_eq b bs sp [] hr, buildOptions_withFilter,
          buildOptions_nil, sweep_some_eq_filter]
    · simp [Find, hr]

/-- Witness for the amended C4: block `[1,5)` in span `[0,8)` with the
"shorter than 2" filter. -/
theorem find_filter_exclusion_law_witness :
    ([(⟨1, 5⟩ : Block)] ≠ []) ∧ (∀ b ∈ [(⟨1, 5⟩ : Block)], b.Valid) ∧
    Find [⟨1, 5⟩] (some ⟨0, 8⟩)
        [WithFilter (fun s => decide (s.end_ - s.start < 2))] =
      (Find [⟨1, 5⟩] (some ⟨0, 8⟩) []).filter
        (fun s => ! (fun s' : Slot => decide (s'.end_ - s'.start < 2)) s) :=
  ⟨by decide, by decide,
    find_filter_exclusion_law [⟨1, 5⟩] (some ⟨0, 8⟩)
      (fun s' => decide (s'.end_ - s'.start < 2)) (by decide) (by decide)⟩

/-- C5: `FindWithMapper` with identity conversions and the same options
returns exactly the same slot list as `Find`, for every span, block list
and filter. -/
theorem findWithMapper_id_eq_find (blocks : List Block) (span : Option Span)
    (opts : List (Options Slot → Options Slot)) :
    FindWithMapper blocks span id id opts = Find blocks span opts := by
  cases span with
  | none => rfl
  | some sp =>
    by_cases hr : sp.Remain
    · cases blocks with
      | nil => simp [FindWithMapper, Find, hr]
      | cons b bs =>
        simp only [FindWithMapper, Find, if_pos hr]
        rw [sortInputs_eq_sortBlocks, sweepM_id_eq]
    · simp [FindWithMapper, Find, hr]

/-- C6: a nil span, or a span with `Start >= End`, yields the empty result
from both entry points immediately: the block slice is left exactly as
passed, the caller's span is unchanged and the filter is never invoked. -/
theorem find_early_exit {In Out : Type} [Period In] (blocks : List Block)
    (sp : Span) (opts : List (Options Slot → Options Slot))
    (inputs : List In) (mapin : In → Block) (mapout : Slot → Out)
    (optsM : List (Options Out → Options Out)) (h : ¬ sp.Remain) :
    FindFull blocks (some sp) opts = ⟨[], blocks, some sp, 0⟩ ∧
    Find blocks (some sp) opts = [] ∧
    FindWithMapper inputs (some sp) mapin mapout optsM = [] ∧
    FindFull blocks none opts = ⟨[], blocks, none, 0⟩ ∧
    Find blocks none opts = [] ∧
    FindWithMapper inputs none mapin mapout optsM = [] := by
  refine ⟨?_, ?_, ?_, rfl, rfl, rfl⟩ <;>
    simp [FindFull, Find, FindWithMapper, h]

/-- Witness for C6: the degenerate span `[5,5)` with one block present. -/
theorem find_early_exit_witness :
    ¬ Span.Remain ⟨5, 5⟩ ∧
    (FindFull [⟨0, 1⟩] (some ⟨5, 5⟩) [] = ⟨[], [⟨0, 1⟩], some ⟨5, 5⟩, 0⟩ ∧
    Find [⟨0, 1⟩] (some ⟨5, 5⟩) [] = [] ∧
    FindWithMapper [(⟨0, 1⟩ : Block)] (some ⟨5, 5⟩) id id [] = [] ∧
    FindFull [⟨0, 1⟩] none [] = ⟨[], [⟨0, 1⟩], none, 0⟩ ∧
    Find [⟨0, 1⟩] none [] = [] ∧
    FindWithMapper [(⟨0, 1⟩ : Block)] none id id [] = []) :=
  ⟨by decide,
    find_early_exit [⟨0, 1⟩] ⟨5, 5⟩ [] [(⟨0, 1⟩ : Block)] id id []
      (by decide)⟩

/-- C7 counterexample: the predicates are *not* mutually exclusive for
every well-formed block and period: for block `[0,8)` and period `[0,9)`
both `OverlapAtStart` and `IsContainedIn` hold (these are exactly the
`want: true` rows of `TestOverlapAtStart` and `TestIsContainedIn` for the
`[0,9)` argument in `src/blocks_test.go`). -/
theorem predicate_exclusivity_counterexample :
    Block.Valid ⟨0, 8⟩ ∧ Span.Remain ⟨0, 9⟩ ∧
    Block.OverlapAtStart (⟨0, 8⟩ : Block) (⟨0, 9⟩ : Span) ∧
    Block.IsContainedIn (⟨0, 8⟩ : Block) (⟨0, 9⟩ : Span) := by decide

/-- C7 (amended): for a well-formed block and a period `p` with
`Start < End` whose endpoints differ from the block's corresponding
endpoints (`p.Start ≠ block.Start` and `p.End ≠ block.End`), at most one of
the four predicates holds. -/
theorem predicates_mutually_exclusive (b : Block) (p : Span)
    (hb : b.Valid) (hp : p.Remain) (h1 : p.start ≠ b.start)
    (h2 : p.end_ ≠ b.end_) :
    ¬(b.Contains p ∧ b.IsContainedIn p) ∧
    ¬(b.Contains p ∧ b.OverlapAtStart p) ∧
    ¬(b.Contains p ∧ b.OverlapAtEnd p) ∧
    ¬(b.IsContainedIn p ∧ b.OverlapAtStart p) ∧
    ¬(b.IsContainedIn p ∧ b.OverlapAtEnd p) ∧
    ¬(b.OverlapAtStart p ∧ b.OverlapAtEnd p) := by
  simp only [Block.Valid] at hb
  simp only [Span.Remain] at hp
  simp only [Block.Contains, Block.IsContainedIn, Block.OverlapAtStart,
    Block.OverlapAtEnd, Span.startP_eq, Span.endP_eq]
  refine ⟨?_, ?_, ?_, ?_, ?_, ?_⟩ <;>
    · rintro ⟨ha, hb'⟩
      omega

/-- Witness for the amended C7: block `[2,5)` against period `[0,8)`. -/
theorem predicates_mutually_exclusive_witness :
    Block.Valid ⟨2, 5⟩ ∧ Span.Remain ⟨0, 8⟩ ∧
    Span.start ⟨0, 8⟩ ≠ Block.start ⟨2, 5⟩ ∧
    Span.end_ ⟨0, 8⟩ ≠ Block.end_ ⟨2, 5⟩ ∧
    (¬(Block.Contains ⟨2, 5⟩ (⟨0, 8⟩ : Span) ∧
        Block.IsContainedIn ⟨2, 5⟩ (⟨0, 8⟩ : Span)) ∧
    ¬(Block.Contains ⟨2, 5⟩ (⟨0, 8⟩ : Span) ∧
        Block.OverlapAtStart ⟨2, 5⟩ (⟨0, 8⟩ : Span)) ∧
    ¬(Block.Contains ⟨2, 5⟩ (⟨0, 8⟩ : Span) ∧
        Block.OverlapAtEnd ⟨2, 5⟩ (⟨0, 8⟩ : Span)) ∧
    ¬(Block.IsContainedIn ⟨2, 5⟩ (⟨0, 8⟩ : Span) ∧
        Block.OverlapAtStart ⟨2, 5⟩ (⟨0, 8⟩ : Span)) ∧
    ¬(Block.IsContainedIn ⟨2, 5⟩ (⟨0, 8⟩ : Span) ∧
        Block.OverlapAtEnd ⟨2, 5⟩ (⟨0, 8⟩ : Span)) ∧
    ¬(Block.OverlapAtStart ⟨2, 5⟩ (⟨0, 8⟩ : Span) ∧
        Block.OverlapAtEnd ⟨2, 5⟩ (⟨0, 8⟩ : Span))) :=
  ⟨by decide, by decide, by decide, by decide,
    predicates_mutually_exclusive ⟨2, 5⟩ ⟨0, 8⟩ (by decide) (by decide)
      (by decide) (by decide)⟩

/-- C8: the caller's span is unchanged by a call to `Find` or to
`FindWithMapper`: in the effect-instrumented embeddings of both entry
points, in which every span mutation of the source is applied to the
threaded state, the caller's span component after the call equals the span
passed in (only the clone made at `src/finder.go:123` resp. `:50` is ever
written). -/
theorem findFull_preserves_caller_span {In Out : Type} [Period In]
    (blocks : List Block) (span : Option Span)
    (opts : List (Options Slot → Options Slot)) (inputs : List In)
    (mapin : In → Block) (mapout : Slot → Out)
    (optsM : List (Options Out → Options Out)) :
    (FindFull blocks span opts).spanAfter = span ∧
    (FindFullM inputs span mapin mapout optsM).spanAfter = span := by
  constructor
  · cases span with
    | none => rfl
    | some sp =>
      by_cases hr : sp.Remain
      · cases blocks with
        | nil => simp [FindFull, hr]
        | cons b bs => simp [FindFull, hr, sweepFull_caller]
      · simp [FindFull, hr]
  · cases span with
    | none => rfl
    | some sp =>
      by_cases hr : sp.Remain
      · cases inputs with
        | nil => simp [FindFullM, hr]
        | cons i is => simp [FindFullM, hr, sweepFullM_caller]
      · simp [FindFullM, hr]

/-- C9: with `n` blocks the result of `Find` holds at most `n + 1` slots
(the `n+1`-sized buffer is never overrun), and likewise for
`FindWithMapper` with `n` inputs. -/
theorem find_result_length_bound {In Out : Type} [Period In]
    (blocks : List Block) (span : Option Span)
    (opts : List (Options Slot → Options Slot)) (inputs : List In)
    (mapin : In → Block) (mapout : Slot → Out)
    (optsM : List (Options Out → Options Out)) :
    (Find blocks span opts).length ≤ blocks.length + 1 ∧
    (FindWithMapper inputs span mapin mapout optsM).length ≤
      inputs.length + 1 := by
  constructor
  · cases span with
    | none => simp [Find]
    | some sp =>
      by_cases hr : sp.Remain
      · cases blocks with
        | nil => simp [Find, hr]
        | cons b bs =>
          have h := sweep_length_le (buildOptions opts).filterFunc
            (sortBlocks (b :: bs)) sp.Clone
          have hlen : (sortBlocks (b :: bs)).length = (b :: bs).length :=
            (sortBlocks_perm _).length_eq
          rw [find_cons_eq b bs sp opts hr]
          omega
      · simp [Find, hr]
  · cases span with
    | none => simp [FindWithMapper]
    | some sp =>
      by_cases hr : sp.Remain
      · cases inputs with
        | nil => simp [FindWithMapper, hr]
        | cons i is =>
          have h := sweepM_length_le mapin mapout
            (buildOptions optsM).filterFunc (sortInputs (i :: is)) sp.Clone
          have hlen : (sortInputs (i :: is)).length = (i :: is).length :=
            (List.perm_insertionSort _ _).length_eq
          simp only [FindWithMapper, if_pos hr]
          omega
      · simp [FindWithMapper, hr]

/-- C10: every returned slot lies inside the original span, with or
without a filter, for well-formed blocks. -/
theorem find_slots_within_span (blocks : List Block) (sp : Span)
    (opts : List (Options Slot → Options Slot))
    (hv : ∀ b ∈ blocks, b.Valid) :
    ∀ s ∈ Find blocks (some sp) opts,
      sp.start ≤ s.start ∧ s.end_ ≤ sp.end_ := by
  by_cases hr : sp.Remain
  · cases blocks with
    | nil =>
      intro s hs
      rw [find_nil_blocks sp opts hr] at hs
      rw [List.mem_singleton] at hs
      subst hs
      exact ⟨le_refl _, le_refl _⟩
    | cons b bs =>
      intro s hs
      rw [find_cons_eq b bs sp opts hr] at hs
      have hv' : ∀ b' ∈ sortBlocks (b :: bs), b'.Valid := fun b' h =>
        hv b' ((sortBlocks_perm _).mem_iff.1 h)
      exact sweep_mem_window _ _ _ hv' s hs
  · intro s hs
    simp [Find, hr] at hs

/-- Witness for C10: tail-overlapping block `[3,9)` in span `[0,8)`. -/
theorem find_slots_within_span_witness :
    (∀ b ∈ [(⟨3, 9⟩ : Block)], b.Valid) ∧
    ∀ s ∈ Find [⟨3, 9⟩] (some ⟨0, 8⟩) [],
      Span.start ⟨0, 8⟩ ≤ s.start ∧ s.end_ ≤ Span.end_ ⟨0, 8⟩ :=
  ⟨by decide, find_slots_within_span [⟨3, 9⟩] ⟨0, 8⟩ [] (by decide)⟩
